import Mathlib

/-
Verification of the railway-oriented-programming core of the repository:
the Result algebra and its adapters (src/index.ts) and the composition
engine (src/util/pipe.ts).

The embedding follows the later generation of the algebra in src/index.ts
(the one keyed by the _tag discriminant), which the design notes declare
authoritative; the earlier generation is embedded separately where a claim
refers to it (the two-callback pattern match at lines 137 to 147).

Side effects of step functions are out of scope; what a claim says about a
wrapped function being invoked or not is captured by instrumented twins of
the adapters that count, alongside the result, how many times the wrapped
function was applied.  Each twin mirrors the branch structure of its source
function exactly: the branch that applies the wrapped function records one
application, the branch that does not touch it records zero.
-/

namespace Rop

/-- The two-variant Result container of src/index.ts: Failure holds a fault
value (the error side of the Either), Success holds a produced value. -/
inductive Result (E V : Type) where
  | Failure : E → Result E V
  | Success : V → Result E V

/-- Embedding of the later generation pattern match of src/index.ts, lines
451 to 461 (named match in the source, a reserved word in Lean): on the
error tag it returns the input Result itself, on the value tag it applies
nextFunction to the payload. -/
def matchRes (nextFunction : A → Result E B) : Result E A → Result E B
  | .Failure e => .Failure e
  | .Success v => nextFunction v

/-- Instrumented twin of matchRes: alongside the result, the number of
times nextFunction was applied (zero on the error branch, one on the value
branch). -/
def matchResCount (nextFunction : A → Result E B) : Result E A → Result E B × Nat
  | .Failure e => (.Failure e, 0)
  | .Success v => (nextFunction v, 1)

/-- Embedding of flatMap, src/index.ts lines 429 to 437: the data-last form
of the dual dispatch applies matchRes to the switch function and the
incoming Result. -/
def flatMap (nextFunction : A → Result E B) (input : Result E A) : Result E B :=
  matchRes nextFunction input

/-- Instrumented twin of flatMap, counting applications of the switch
function. -/
def flatMapCount (nextFunction : A → Result E B) (input : Result E A) : Result E B × Nat :=
  matchResCount nextFunction input

/-- Embedding of bind, src/index.ts lines 480 to 483: the map adapter of
the later generation.  It lifts a single-track function by wrapping its
output in Success and delegating to matchRes. -/
def bind (singleFunction : A → B) (previousValue : Result E A) : Result E B :=
  matchRes (fun value => .Success (singleFunction value)) previousValue

/-- Instrumented twin of bind, counting applications of the single-track
function. -/
def bindCount (singleFunction : A → B) (previousValue : Result E A) : Result E B × Nat :=
  matchResCount (fun value => .Success (singleFunction value)) previousValue

/-- Embedding of the earlier generation pattern match of src/index.ts,
lines 137 to 147: it takes the input Result first, then the failure
callback, then the success callback, invokes exactly the callback matching
the tag with the payload of the variant, and returns that result. -/
def matchRes1 (input : Result L R) (onFailure : L → T) (onSuccess : R → T) : T :=
  match input with
  | .Failure e => onFailure e
  | .Success v => onSuccess v

/-- Instrumented twin of matchRes1: alongside the result, how many times
the failure callback and the success callback were invoked. -/
def matchRes1Count (input : Result L R) (onFailure : L → T) (onSuccess : R → T) :
    T × Nat × Nat :=
  match input with
  | .Failure e => (onFailure e, 1, 0)
  | .Success v => (onSuccess v, 0, 1)

/-- A pipeline stage built from one of the two Result-aware adapters: a
flatMap-adapted switch function or a bind-adapted (map-adapted)
single-track function. -/
inductive AdaptedStep (E V : Type) where
  | viaFlatMap : (V → Result E V) → AdaptedStep E V
  | viaMap : (V → V) → AdaptedStep E V

/-- Run one adapted stage on an incoming Result. -/
def applyAdapted : AdaptedStep E V → Result E V → Result E V
  | .viaFlatMap f => flatMap f
  | .viaMap g => bind g

/-- Instrumented twin of applyAdapted, counting applications of the wrapped
function. -/
def applyAdaptedCount : AdaptedStep E V → Result E V → Result E V × Nat
  | .viaFlatMap f => flatMapCount f
  | .viaMap g => bindCount g

/-- Run a chain of adapted stages left to right. -/
def runAdapted (steps : List (AdaptedStep E V)) (r : Result E V) : Result E V :=
  steps.foldl (fun acc s => applyAdapted s acc) r

/-- Instrumented twin of runAdapted: the final Result together with the
total number of wrapped-function applications across the whole chain. -/
def runAdaptedCount (steps : List (AdaptedStep E V)) (r : Result E V) : Result E V × Nat :=
  steps.foldl (fun acc s =>
    let p := applyAdaptedCount s acc.1
    (p.1, acc.2 + p.2)) (r, 0)

/-- C3: matchRes1 applied to Failure e returns the failure callback applied
to e, invoking that callback once and the success callback never; applied
to Success v it returns the success callback applied to v, invoking that
callback once and the failure callback never; on every input exactly one of
the two callbacks is invoked. -/
theorem match_invokes_exactly_one (onFailure : L → T) (onSuccess : R → T) (e : L) (v : R) :
    matchRes1 (Result.Failure e) onFailure onSuccess = onFailure e ∧
    matchRes1Count (Result.Failure e) onFailure onSuccess = (onFailure e, 1, 0) ∧
    matchRes1 (Result.Success v) onFailure onSuccess = onSuccess v ∧
    matchRes1Count (Result.Success v) onFailure onSuccess = (onSuccess v, 0, 1) ∧
    ∀ r : Result L R,
      (matchRes1Count r onFailure onSuccess).2.1 +
        (matchRes1Count r onFailure onSuccess).2.2 = 1 := by
  refine ⟨rfl, rfl, rfl, rfl, ?_⟩
  intro r
  cases r <;> rfl

/-- C4: for every switch function f and fault value e, flatMap f applied to
Failure e returns Failure e itself, and the instrumented run shows f is
applied zero times. -/
theorem flatMap_short_circuits_failure (f : A → Result E B) (e : E) :
    flatMap f (Result.Failure e) = Result.Failure e ∧
    flatMapCount f (Result.Failure e) = (Result.Failure e, 0) :=
  ⟨rfl, rfl⟩

/-- C5: the map adapter (named bind in the later generation of the source)
sends Success v to Success of the lifted function applied to v, passes a
Failure through still wrapped with the same fault payload, and the
instrumented run shows the lifted function is applied zero times on a
Failure. -/
theorem map_adapter_success_and_failure (f : A → B) (v : A) (e : E) :
    bind f (Result.Success v : Result E A) = Result.Success (f v) ∧
    bind f (Result.Failure e : Result E A) = (Result.Failure e : Result E B) ∧
    bindCount f (Result.Failure e : Result E A) = ((Result.Failure e : Result E B), 0) :=
  ⟨rfl, rfl, rfl⟩

/-- C8: flatMap satisfies the monadic associativity law on every Result
input. -/
theorem flatMap_assoc (f : A → Result E B) (g : B → Result E C) (r : Result E A) :
    flatMap g (flatMap f r) = flatMap (fun x => flatMap g (f x)) r := by
  cases r <;> rfl

/-- C7: the Derailed state is absorbing: a chain of flatMap-adapted and
map-adapted stages applied to Failure e yields Failure e with the identical
fault payload after every stage, and the instrumented run shows none of the
wrapped functions is ever applied. -/
theorem failure_absorbing_through_adapters (steps : List (AdaptedStep E V)) (e : E) :
    runAdapted steps (Result.Failure e) = Result.Failure e ∧
    runAdaptedCount steps (Result.Failure e) = (Result.Failure e, 0) := by
  constructor
  · induction steps with
    | nil => rfl
    | cons s rest ih =>
      have hs : applyAdapted s (Result.Failure e) = Result.Failure e := by
        cases s <;> rfl
      simpa [runAdapted, List.foldl, hs] using ih
  · induction steps with
    | nil => rfl
    | cons s rest ih =>
      have hs : applyAdaptedCount s (Result.Failure e) = (Result.Failure e, 0) := by
        cases s <;> rfl
      simpa [runAdaptedCount, List.foldl, hs] using ih

/-- A possibly suspended value, the shape the pipe engine of
src/util/pipe.ts tests with its structural isPromise check: now holds an
immediately available value, later a pending computation that settles to
the held value. -/
inductive SVal (α : Type) where
  | now : α → SVal α
  | later : α → SVal α

/-- The value a possibly suspended computation settles to (what the await
keyword yields; awaiting an immediate value yields it unchanged). -/
def SVal.settle : SVal α → α
  | .now a => a
  | .later a => a

/-- Embedding of resolveAsync, src/util/pipe.ts lines 65 to 68: await the
current result, apply the next function to the settled value, repeat for
every remaining function, and await the final result. -/
def resolveAsync : SVal α → List (α → SVal α) → α
  | result, [] => result.settle
  | result, fn :: rest => resolveAsync (fn result.settle) rest

/-- Embedding of the loop inside pipe, src/util/pipe.ts lines 37 to 45:
apply each function in order to the current value; as soon as one result is
suspended, hand the pending result and the remaining functions to
resolveAsync, and the overall result is the suspended outcome of that
asynchronous call; otherwise return the final value immediately. -/
def pipeLoop : List (α → SVal α) → α → SVal α
  | [], cur => .now cur
  | fn :: rest, cur =>
    match fn cur with
    | .now v => pipeLoop rest v
    | .later v => .later (resolveAsync (.later v) rest)

/-- Embedding of pipe, src/util/pipe.ts lines 34 to 46: the callable built
from the function list threads its argument through pipeLoop. -/
def pipe (funs : List (α → SVal α)) (x : α) : SVal α :=
  pipeLoop funs x

/-- The fully applied composition of a chain: every function applied in
order, the result of each step settled before the next application. -/
def runAll (funs : List (α → SVal α)) (x : α) : α :=
  funs.foldl (fun a fn => (fn a).settle) x

/-- Instrumented twin of resolveAsync over identifier-labelled steps: it
also returns, in order, the labels of the functions applied. -/
def resolveAsyncT : SVal α → List (Nat × (α → SVal α)) → α × List Nat
  | result, [] => (result.settle, [])
  | result, st :: rest =>
    let p := resolveAsyncT (st.2 result.settle) rest
    (p.1, st.1 :: p.2)

/-- Instrumented twin of pipeLoop over identifier-labelled steps: it also
returns, in order, the labels of the functions applied. -/
def pipeLoopT : List (Nat × (α → SVal α)) → α → SVal α × List Nat
  | [], cur => (.now cur, [])
  | st :: rest, cur =>
    match st.2 cur with
    | .now v =>
      let p := pipeLoopT rest v
      (p.1, st.1 :: p.2)
    | .later v =>
      let p := resolveAsyncT (.later v) rest
      (.later p.1, st.1 :: p.2)

theorem pipeLoop_plain (gs : List (α → α)) (x : α) :
    pipeLoop (gs.map (fun g => fun a => SVal.now (g a))) x
      = SVal.now (gs.foldl (fun a g => g a) x) := by
  induction gs generalizing x with
  | nil => rfl
  | cons g rest ih => simpa [pipeLoop, List.foldl] using ih (g x)

theorem pipeLoopT_plain (steps : List (Nat × (α → α))) (x : α) :
    pipeLoopT (steps.map (fun st => (st.1, fun a => SVal.now (st.2 a)))) x
      = (SVal.now (steps.foldl (fun a st => st.2 a) x), steps.map Prod.fst) := by
  induction steps generalizing x with
  | nil => rfl
  | cons st rest ih =>
    simp only [List.map_cons, pipeLoopT, List.foldl_cons, ih (st.2 x)]

/-- C1: for a non-empty chain of plain (never suspending) labelled step
functions, the callable built by pipe returns, immediately and not
suspended, the left-to-right fold of the functions over the input, and the
instrumented run applies every function in chain order exactly once,
whatever the values flowing through are (the engine is blind to Result
tags, so the type of the threaded value is arbitrary and may be a Result
carrying a Failure). -/
theorem pipe_plain_synchronous_chain (steps : List (Nat × (α → α))) (x : α)
    (h : steps ≠ []) :
    pipe (steps.map (fun st => fun a => SVal.now (st.2 a))) x
      = SVal.now (steps.foldl (fun a st => st.2 a) x) ∧
    (pipeLoopT (steps.map (fun st => (st.1, fun a => SVal.now (st.2 a)))) x).2
      = steps.map Prod.fst := by
  refine ⟨?_, ?_⟩
  · simpa [pipe] using pipeLoop_plain (steps.map Prod.snd) x |>.trans (by simp [List.foldl_map])
  · simp [pipeLoopT_plain]

/-- Witness for C1 at a concrete chain over Result values: the first step
produces a Failure and the second raw step is still invoked on it (trace
holds both labels, in order), the chain returning the second step's output
synchronously. -/
theorem pipe_plain_synchronous_chain_witness :
    pipe [fun _ : Result Nat Nat => SVal.now (Result.Failure 1),
          fun _ => SVal.now (Result.Success 5)] (Result.Success 0) =
      SVal.now (Result.Success 5) ∧
    (pipeLoopT [(0, fun _ : Result Nat Nat => SVal.now (Result.Failure 1)),
                (1, fun _ => SVal.now (Result.Success 5))] (Result.Success 0)).2
      = [0, 1] := by
  have h := pipe_plain_synchronous_chain
    [(0, fun _ : Result Nat Nat => Result.Failure 1),
     (1, fun _ => Result.Success 5)] (Result.Success 0) (by simp)
  simpa using h

theorem pipeLoop_append_of_now (pre : List (α → SVal α)) (x v : α)
    (h : pipeLoop pre x = SVal.now v) (rest : List (α → SVal α)) :
    pipeLoop (pre ++ rest) x = pipeLoop rest v := by
  induction pre generalizing x with
  | nil =>
    simp only [pipeLoop] at h
    cases h
    rfl
  | cons fn pre ih =>
    simp only [pipeLoop, List.cons_append] at h ⊢
    cases hfn : fn x with
    | now u =>
      rw [hfn] at h
      exact ih u h
    | later u =>
      rw [hfn] at h
      cases h

theorem resolveAsync_eq_runAll (s : SVal α) (funs : List (α → SVal α)) :
    resolveAsync s funs = runAll funs s.settle := by
  induction funs generalizing s with
  | nil => rfl
  | cons fn rest ih => simpa [resolveAsync, runAll, List.foldl] using ih (fn s.settle)

theorem runAll_of_pipeLoop_now (pre : List (α → SVal α)) (x v : α)
    (h : pipeLoop pre x = SVal.now v) : runAll pre x = v := by
  induction pre generalizing x with
  | nil =>
    simp only [pipeLoop] at h
    cases h
    rfl
  | cons fn pre ih =>
    simp only [pipeLoop] at h
    cases hfn : fn x with
    | now u =>
      rw [hfn] at h
      simpa [runAll, List.foldl, hfn] using ih u h
    | later u =>
      rw [hfn] at h
      cases h

/-- C2: if the plain prefix of a chain reaches value v and the next step
returns a suspended value settling to w, the whole chain built by pipe
returns a suspended value, that suspended value settles to exactly what the
fully applied composition produces, and that composition finishes by
applying the remaining functions in order to w, awaiting each intermediate
result. -/
theorem pipe_suspension_transparent (pre post : List (α → SVal α))
    (fn : α → SVal α) (x v w : α)
    (h1 : pipe pre x = SVal.now v) (h2 : fn v = SVal.later w) :
    pipe (pre ++ fn :: post) x = SVal.later (runAll (pre ++ fn :: post) x) ∧
    runAll (pre ++ fn :: post) x = runAll post w := by
  have hv : runAll pre x = v := runAll_of_pipeLoop_now pre x v h1
  have hrun : runAll (pre ++ fn :: post) x = runAll post w := by
    simp only [runAll, List.foldl_append, List.foldl]
    rw [show List.foldl (fun a g => (g a).settle) x pre = v from hv, h2]
    rfl
  refine ⟨?_, hrun⟩
  have hstep : pipe (pre ++ fn :: post) x = pipeLoop (fn :: post) v :=
    pipeLoop_append_of_now pre x v h1 (fn :: post)
  rw [hstep]
  simp only [pipeLoop, h2]
  rw [resolveAsync_eq_runAll]
  rw [hrun]
  rfl

/-- Witness for C2 at a concrete mixed chain: a plain step, a suspending
step, a plain step; the overall result is suspended and settles to the
value of the full composition. -/
theorem pipe_suspension_transparent_witness :
    pipe [fun a : Nat => SVal.now (a + 1), fun a => SVal.later (a * 2),
          fun a => SVal.now (a + 3)] 1
      = SVal.later (runAll [fun a : Nat => SVal.now (a + 1),
          fun a => SVal.later (a * 2), fun a => SVal.now (a + 3)] 1) ∧
    runAll [fun a : Nat => SVal.now (a + 1), fun a => SVal.later (a * 2),
          fun a => SVal.now (a + 3)] 1
      = runAll [fun a : Nat => SVal.now (a + 3)] 4 :=
  pipe_suspension_transparent [fun a : Nat => SVal.now (a + 1)]
    [fun a => SVal.now (a + 3)] (fun a => SVal.later (a * 2)) 1 2 4 rfl rfl

/-- C9 counterexample: pipe applied to the empty function list does not
raise any error: the built callable runs and returns its argument unchanged
as an immediate value (here at input 5).  The source contains no runtime
arity check or thrown error at all; the restriction to non-empty lists
lives only in the compile-time type signature. -/
theorem pipe_empty_returns_value :
    pipe ([] : List (Nat → SVal Nat)) 5 = SVal.now 5 := rfl

/-- C9 amended: a chain built from zero functions is rejected only by the
compile-time type signature; the runtime constructor performs no arity
check and raises no error, and the callable it builds returns its argument
unchanged, immediately. -/
theorem pipe_empty_is_identity (x : α) :
    pipe ([] : List (α → SVal α)) x = SVal.now x := rfl

/-- A thrown fault value as guard observes it: it may carry a stable code
(the source reads the code field of the caught value, which may be absent)
and a message distinguishing the value. -/
structure JsError where
  code : Option String
  message : String

/-- Outcome of awaiting a possibly throwing, possibly rejecting
computation: either a value or a thrown fault. -/
inductive Throws (α : Type) where
  | ok : α → Throws α
  | thrown : JsError → Throws α

/-- Embedding of the fault translation in the catch branch of guard,
src/index.ts line 555: look the code of the caught fault up in the optional
fault map and fall back to the raw fault when the map is absent, the fault
has no code, or the map holds no entry for that code. -/
def lookupFault (errors : Option (String → Option JsError)) (e : JsError) : JsError :=
  match errors with
  | none => e
  | some m =>
    match e.code with
    | none => e
    | some c => (m c).getD e

/-- Embedding of guard, src/index.ts lines 548 to 557: an asynchronous
wrapper (hence the result is always suspended) that awaits the switch
function; when the awaited computation yields a Result that Result is
returned, and when it throws or rejects the caught fault is translated
through the optional fault map and returned wrapped in Failure.  A switch
function is modelled as returning a possibly suspended outcome that is
either a Result or a thrown fault, covering synchronous throws and
asynchronous rejections alike. -/
def guard (switchFunction : R → SVal (Throws (Result JsError R)))
    (errors : Option (String → Option JsError)) (previousValue : R) :
    SVal (Result JsError R) :=
  SVal.later (match (switchFunction previousValue).settle with
    | .ok r => r
    | .thrown e => .Failure (lookupFault errors e))

/-- C6: a guard-wrapped step never propagates a thrown or rejected fault:
when the awaited switch function yields a Result, guard returns exactly
that Result (suspended); when it throws or rejects, guard returns a
suspended Failure carrying the fault map entry for the fault code when the
map and the entry are present, and the raw fault value otherwise (map
absent, fault without code, or code not in the map). -/
theorem guard_captures_thrown_fault (f : R → SVal (Throws (Result JsError R)))
    (errors : Option (String → Option JsError)) (x : R) :
    (∀ r, (f x).settle = Throws.ok r → guard f errors x = SVal.later r) ∧
    (∀ e, (f x).settle = Throws.thrown e →
      guard f errors x = SVal.later (Result.Failure (lookupFault errors e))) ∧
    (∀ e, lookupFault none e = e) ∧
    (∀ m e, e.code = none → lookupFault (some m) e = e) ∧
    (∀ m e c t, e.code = some c → m c = some t → lookupFault (some m) e = t) ∧
    (∀ m e c, e.code = some c → m c = none → lookupFault (some m) e = e) := by
  refine ⟨?_, ?_, fun e => rfl, ?_, ?_, ?_⟩
  · intro r h
    simp [guard, h]
  · intro e h
    simp [guard, h]
  · intro m e hc
    simp [lookupFault, hc]
  · intro m e c t hc ht
    simp [lookupFault, hc, ht]
  · intro m e c hc ht
    simp [lookupFault, hc, ht]

/-- Witness for C6 at concrete inputs: a switch function that throws a
fault with code x, a fault map holding an entry for that code; guard
returns the mapped fault wrapped in Failure, suspended.  A second use at a
switch function that yields a Result shows that Result returned. -/
theorem guard_captures_thrown_fault_witness :
    guard (fun _ : Nat => SVal.now (Throws.thrown ⟨some "x", "boom"⟩))
      (some (fun c => if c = "x" then some ⟨none, "mapped"⟩ else none)) 3
      = SVal.later (Result.Failure ⟨none, "mapped"⟩) ∧
    guard (fun _ : Nat => SVal.now (Throws.ok (Result.Success 7))) none 3
      = SVal.later (Result.Success 7) := by
  constructor
  · have h := (guard_captures_thrown_fault
      (fun _ : Nat => SVal.now (Throws.thrown ⟨some "x", "boom"⟩))
      (some (fun c => if c = "x" then some ⟨none, "mapped"⟩ else none)) 3).2.1
      ⟨some "x", "boom"⟩ rfl
    simpa [lookupFault] using h
  · exact (guard_captures_thrown_fault
      (fun _ : Nat => SVal.now (Throws.ok (Result.Success 7))) none 3).1
      (Result.Success 7) rfl

/-- Embedding of flatMap applied to a suspension-returning switch function,
seen as one step of the pipe engine (the data-last overload of flatMap in
src/index.ts lines 429 to 437 whose nextFunction may return a suspended
Result): on the error tag the adapter returns the input Failure itself,
which is an immediate value, and on the value tag it returns whatever
nextFunction produced, suspended or not. -/
def flatMapP (nextFunction : A → SVal (Result E B)) : Result E A → SVal (Result E B)
  | .Failure e => .now (.Failure e)
  | .Success v => nextFunction v

/-- C10: the step built by guard always returns a suspended value, never an
immediate Result, whatever the switch function, fault map and input are
(even for a fully synchronous, non-throwing switch function); consequently
a pipe chain whose prefix succeeds with a Success and whose next stage is a
guard step (adapted by flatMap) yields a suspended overall result. -/
theorem guard_always_suspends (f : R → SVal (Throws (Result JsError R)))
    (errors : Option (String → Option JsError)) (x : R)
    (pre post : List (Result JsError R → SVal (Result JsError R)))
    (r0 : Result JsError R) (v : R)
    (h : pipe pre r0 = SVal.now (Result.Success v)) :
    (∃ res, guard f errors x = SVal.later res) ∧
    (∃ w, pipe (pre ++ flatMapP (guard f errors) :: post) r0 = SVal.later w) := by
  refine ⟨⟨_, rfl⟩, ?_⟩
  have hstep : pipe (pre ++ flatMapP (guard f errors) :: post) r0
      = pipeLoop (flatMapP (guard f errors) :: post) (Result.Success v) :=
    pipeLoop_append_of_now pre r0 (Result.Success v) h _
  rw [hstep]
  exact ⟨_, rfl⟩

/-- Witness for C10 at a concrete synchronous, succeeding switch function
in a one-stage chain: the overall pipe result is suspended. -/
theorem guard_always_suspends_witness :
    (∃ res, guard (fun a : Nat => SVal.now (Throws.ok (Result.Success a))) none 0
      = SVal.later res) ∧
    (∃ w, pipe [flatMapP (guard (fun a : Nat => SVal.now (Throws.ok (Result.Success a))) none)]
      (Result.Success 0) = SVal.later w) :=
  guard_always_suspends (fun a : Nat => SVal.now (Throws.ok (Result.Success a))) none 0
    [] [] (Result.Success 0) 0 rfl

end Rop
